import Mathlib

/-!
Verification development for `zeep/xsd/types.py` (python-zeep XSD type engine).

The Python module manipulates a mutable, possibly cyclic graph of type
objects.  We embed it shallowly as an arena ("heap") of type records
addressed by `Nat` identifiers — object identity becomes identifier
equality, and in-place mutation becomes explicit store passing.  The
mutually recursive `resolve` walk is indexed by fuel.

The collaborator modules `zeep.xsd.elements`, `zeep.xsd.utils` and
`zeep.xsd.valueobjects` are not part of the given source; following the
spec they are consumed as opaque contracts (content-model nodes expose
`parse_xmlelements` / `render` / `serialize` / `signature` as plain
function fields; a compound value is a named field map).
-/

namespace Zeep

/-- Python runtime values as far as this module observes them: `None`,
text, integers, iterable sequences and compound (record) values holding
named fields in insertion order. -/
inductive Value where
  | pyNone : Value
  | str : String → Value
  | int : Int → Value
  | list : List Value → Value
  | compound : List (String × Value) → Value

/-- Result of `serialize`: either a plain (scalar) value or an ordered
name/value mapping (the `OrderedDict` produced by `ComplexType.serialize`). -/
inductive SerVal where
  | prim : Value → SerVal
  | dict : List (String × SerVal) → SerVal

/-- The XML node contract consumed by the module: ordered child elements,
attribute mapping and optional text content. -/
inductive XmlNode where
  | node : List XmlNode → List (String × String) → Option String → XmlNode

def XmlNode.children : XmlNode → List XmlNode
  | .node cs _ _ => cs

def XmlNode.attrib : XmlNode → List (String × String)
  | .node _ a _ => a

def XmlNode.text : XmlNode → Option String
  | .node _ _ t => t

def XmlNode.setText : XmlNode → Option String → XmlNode
  | .node cs a _, t => .node cs a t

def XmlNode.setAttrib : XmlNode → String → String → XmlNode
  | .node cs a t, k, v => .node cs (a ++ [(k, v)]) t

/-- An attribute definition (an `Attribute` object from
`zeep.xsd.elements`, consumed opaquely): a name, the identifier of the
type it references, and its behavioural contract (decode a textual XML
attribute value, render onto a node, print a signature). -/
structure Attr where
  name : String
  typeRef : Nat
  parseF : String → Value
  renderF : XmlNode → Value → XmlNode
  sig : String

/-- A single `Element` content node (from `zeep.xsd.elements`, consumed
opaquely): a name, its type reference, and its behavioural contract. -/
structure ElementNode where
  name : String
  typeRef : Nat
  parse_xmlelements : List XmlNode → String → List (String × Value)
  serializeF : Value → SerVal
  signatureF : String

/-- A composite content node (`Sequence` / `All` / `Choice` / `Group`
from `zeep.xsd.elements`): behaves as a list of element definitions
(`ComplexType.serialize` iterates it as a list) with its own multi-field
parse / render / signature contract. -/
structure GroupNode where
  items : List ElementNode
  parse_xmlelements : List XmlNode → String → List (String × Value)
  renderF : XmlNode → Value → XmlNode
  signatureF : String

/-- A content-model node is a single element or a composite group; the
module distinguishes the two with `isinstance` checks. -/
inductive ContentNode where
  | element : ElementNode → ContentNode
  | group : GroupNode → ContentNode

/-- Class-level data of a concrete `SimpleType` subclass: the Python
class name (`__name__`), the `name` class attribute (defaults to `None`),
and the scalar encode/decode pair implemented by the subclass. -/
structure SimpleData where
  pyName : String
  name : Option String
  xmlvalueF : Value → String
  pythonvalueF : String → Value

/-- Instance state of a `ComplexType`: `pyName` is the class name
(`ComplexType.name` property), the remaining fields are `_element`,
`_attributes`, `_restriction`, `_extension` and `_resolved` (reference
fields hold heap identifiers). -/
structure ComplexData where
  pyName : String
  element : Option ContentNode
  attributes : List Attr
  restriction : Option Nat
  extension : Option Nat
  resolved : Bool

/-- A fresh `ComplexType()` instance as produced by calling the class
with no arguments (all `__init__` defaults, `_resolved = False`). -/
def emptyComplexData (nm : String) : ComplexData :=
  { pyName := nm
  , element := none
  , attributes := []
  , restriction := none
  , extension := none
  , resolved := false }

/-- One record of the type graph: the variants of `Type` defined by the
module (`UnionType` is included although in Python it does not subclass
`Type`). -/
inductive TypeRec where
  | simple : SimpleData → TypeRec
  | complex : ComplexData → TypeRec
  | unresolvedRef : String → TypeRec
  | unresolvedCustom : String → Nat → TypeRec
  | listT : Nat → TypeRec
  | unionT : List Nat → TypeRec

/-- The mutable world: the arena of type objects plus the schema
registry (`schema.get_type`) mapping qualified names to types. -/
structure Store where
  heap : List (Nat × TypeRec)
  registry : List (String × Nat)

def heapGet : List (Nat × TypeRec) → Nat → Option TypeRec
  | [], _ => none
  | (k, r) :: rest, i => if k = i then some r else heapGet rest i

/-- In-place mutation of an existing heap record (no-op on an absent
identifier; the module only ever mutates objects that exist). -/
def heapSet : List (Nat × TypeRec) → Nat → TypeRec → List (Nat × TypeRec)
  | [], _, _ => []
  | (k, r) :: rest, i, v => if k = i then (k, v) :: rest else (k, r) :: heapSet rest i v

def maxKey : List (Nat × TypeRec) → Nat
  | [] => 0
  | (k, _) :: rest => max k (maxKey rest)

/-- Allocation of a fresh Python object: a new identifier unused by the
heap, appended at the end. -/
def alloc (store : Store) (r : TypeRec) : Nat × Store :=
  (maxKey store.heap + 1,
   { store with heap := store.heap ++ [(maxKey store.heap + 1, r)] })

def registryGet : List (String × Nat) → String → Option Nat
  | [], _ => none
  | (k, v) :: rest, q => if k = q then some v else registryGet rest q

/-- Field assignment on a `ComplexType` object (read-modify-write of its
heap record). -/
def updateComplex (store : Store) (i : Nat) (f : ComplexData → ComplexData) : Store :=
  match heapGet store.heap i with
  | some (.complex c) => { store with heap := heapSet store.heap i (.complex (f c)) }
  | _ => store

/-- `Attribute.resolve` / `Element.resolve` resolve the referenced type
in place and return the (never absent) object itself; the loops below
thread that through the store.  Modelled from the spec: the elements
module is not under src/; §4.1 states that resolution replaces reference
fields with resolved targets in place. -/
def resolveOptRef (recur : Nat → Store → Option (Nat × Store)) :
    Option Nat → Store → Option (Option Nat × Store)
  | none, store => some (none, store)
  | some e, store =>
    match recur e store with
    | none => none
    | some (e2, s2) => some (some e2, s2)

def resolveElemList (recur : Nat → Store → Option (Nat × Store)) :
    List ElementNode → Store → Option (List ElementNode × Store)
  | [], store => some ([], store)
  | e :: rest, store =>
    match recur e.typeRef store with
    | none => none
    | some (t2, s2) =>
      match resolveElemList recur rest s2 with
      | none => none
      | some (rest2, s3) => some ({ e with typeRef := t2 } :: rest2, s3)

def resolveNode (recur : Nat → Store → Option (Nat × Store)) :
    ContentNode → Store → Option (ContentNode × Store)
  | .element e, store =>
    match recur e.typeRef store with
    | none => none
    | some (t2, s2) => some (.element { e with typeRef := t2 }, s2)
  | .group g, store =>
    match resolveElemList recur g.items store with
    | none => none
    | some (items2, s2) => some (.group { g with items := items2 }, s2)

def resolveOptNode (recur : Nat → Store → Option (Nat × Store)) :
    Option ContentNode → Store → Option (Option ContentNode × Store)
  | none, store => some (none, store)
  | some n, store =>
    match resolveNode recur n store with
    | none => none
    | some (n2, s2) => some (some n2, s2)

def resolveAttrList (recur : Nat → Store → Option (Nat × Store)) :
    List Attr → Store → Option (List Attr × Store)
  | [], store => some ([], store)
  | a :: rest, store =>
    match recur a.typeRef store with
    | none => none
    | some (t2, s2) =>
      match resolveAttrList recur rest s2 with
      | none => none
      | some (rest2, s3) => some ({ a with typeRef := t2 } :: rest2, s3)

def resolveRefList (recur : Nat → Store → Option (Nat × Store)) :
    List Nat → Store → Option (List Nat × Store)
  | [], store => some ([], store)
  | t :: rest, store =>
    match recur t store with
    | none => none
    | some (t2, s2) =>
      match resolveRefList recur rest s2 with
      | none => none
      | some (rest2, s3) => some (t2 :: rest2, s3)

/-- The body of `ComplexType.resolve` after the guard: with the
`_resolved` flag already set in `s1`, resolve `_extension`,
`_restriction`, `_element` and each attribute, writing each field back
on `self` in statement order, and return `self`. -/
def resolveComplexTail (recur : Nat → Store → Option (Nat × Store))
    (i : Nat) (c : ComplexData) (s1 : Store) : Option (Nat × Store) :=
  match resolveOptRef recur c.extension s1 with
  | none => none
  | some (ext2, s2) =>
    match resolveOptRef recur c.restriction
        (updateComplex s2 i (fun cc => { cc with extension := ext2 })) with
    | none => none
    | some (restr2, s4) =>
      match resolveOptNode recur c.element
          (updateComplex s4 i (fun cc => { cc with restriction := restr2 })) with
      | none => none
      | some (elem2, s6) =>
        match resolveAttrList recur c.attributes
            (updateComplex s6 i (fun cc => { cc with element := elem2 })) with
        | none => none
        | some (attrs2, s8) =>
          some (i, updateComplex s8 i (fun cc => { cc with attributes := attrs2 }))

/-- One unfolding of `resolve`, dispatching on the variant of the object
(`recur` is the recursive call):

* `SimpleType.resolve` returns `self`;
* `UnresolvedType.resolve` looks the qualified name up in the registry
  and resolves the result (`None` models the `get_type` failure);
* `UnresolvedCustomType.resolve` resolves `base_qname` only when it is
  an `UnresolvedType`, then builds a fresh instance of a dynamically
  created subclass of the base's class: class-level behaviour of a
  `SimpleType` base is inherited, while a `ComplexType` base yields a
  fresh default instance (its instance-level `_element` / `_attributes`
  are not copied); instantiating any other base class raises (`None`);
* `ComplexType.resolve` returns `self` at once when `_resolved` is set,
  otherwise sets the flag first and then resolves `_extension`,
  `_restriction`, `_element` and each attribute in place;
* `ListType.resolve` / `UnionType.resolve` resolve their item type(s)
  in place and return `self`. -/
def resolveStep (recur : Nat → Store → Option (Nat × Store))
    (i : Nat) (store : Store) : Option (Nat × Store) :=
  match heapGet store.heap i with
  | none => none
  | some (.simple _) => some (i, store)
  | some (.unresolvedRef q) =>
    match registryGet store.registry q with
    | none => none
    | some tid => recur tid store
  | some (.unresolvedCustom nm baseRef) =>
    let baseStep : Option (Nat × Store) :=
      match heapGet store.heap baseRef with
      | some (.unresolvedRef _) => recur baseRef store
      | _ => some (baseRef, store)
    match baseStep with
    | none => none
    | some (b, s1) =>
      match heapGet s1.heap b with
      | some (.simple s) => some (alloc s1 (.simple { s with pyName := nm }))
      | some (.complex _) => some (alloc s1 (.complex (emptyComplexData nm)))
      | _ => none
  | some (.complex c) =>
    if c.resolved then some (i, store)
    else
      resolveComplexTail recur i c
        { store with heap := heapSet store.heap i (.complex { c with resolved := true }) }
  | some (.listT itemRef) =>
    match recur itemRef store with
    | none => none
    | some (t2, s2) => some (i, { s2 with heap := heapSet s2.heap i (.listT t2) })
  | some (.unionT refs) =>
    match resolveRefList recur refs store with
    | none => none
    | some (refs2, s2) => some (i, { s2 with heap := heapSet s2.heap i (.unionT refs2) })

/-- Fuel-indexed `resolve`: `resolveFuel fuel i store` resolves the type
object `i`, returning the resolved object and the mutated store (`none`
on failure or fuel exhaustion). -/
def resolveFuel : Nat → Nat → Store → Option (Nat × Store)
  | 0 => fun _ _ => none
  | Nat.succ fuel => resolveStep (resolveFuel fuel)

/-- Modelled from the spec: `UniqueAttributeName` (`zeep.xsd.utils`, not
under src/) pairs content nodes with synthetic unique names; the n-th
`get_name` call yields the n-th synthetic name. -/
def uniqueName (n : Nat) : String :=
  "_value_" ++ toString n

/-- Modelled from the spec: `Element(name, type)` construction for the
synthetic element wrapping a `SimpleType` extension ("a child reference
to an extension that is itself a SimpleType is represented as a single
synthetic element wrapping that scalar", §3).  The behavioural fields
follow the scalar contract of the wrapped type; no claim depends on
them. -/
def syntheticElement (nm : String) (typeRef : Nat) (s : SimpleData) : ElementNode :=
  { name := nm
  , typeRef := typeRef
  , parse_xmlelements := fun children _ =>
      match children with
      | [] => []
      | x :: _ =>
        match x.text with
        | none => [(nm, Value.pyNone)]
        | some t => [(nm, s.pythonvalueF t)]
  , serializeF := fun v => SerVal.prim v
  , signatureF := nm ++ ": " ++ (s.name.getD "") }

/-- The `ComplexType.attributes` cached property: the extension's
effective attributes (recursively, when the extension is itself a
`ComplexType`; the base `Type.attributes` property of the other `Type`
variants yields `[]`; `UnionType` has no such property) followed by the
type's own attributes. -/
def ComplexType.attributes : Nat → Store → Nat → Option (List Attr)
  | 0 => fun _ _ => none
  | Nat.succ fuel => fun store i =>
    match heapGet store.heap i with
    | some (.complex c) =>
      match c.extension with
      | none => some c.attributes
      | some e =>
        match heapGet store.heap e with
        | some (.complex _) =>
          match ComplexType.attributes fuel store e with
          | none => none
          | some base => some (base ++ c.attributes)
        | some (.simple _) => some c.attributes
        | some (.listT _) => some c.attributes
        | some (.unresolvedRef _) => some c.attributes
        | some (.unresolvedCustom _ _) => some c.attributes
        | some (.unionT _) => none
        | none => none
    | _ => none

/-- The `ComplexType.elements_nested` cached property: the extension
contribution first (a synthetic element when the extension is a
`SimpleType`, the extension's own `elements_nested` when it is a
`ComplexType`), then the type's own content node under the next
synthetic name. -/
def ComplexType.elements_nested : Nat → Store → Nat → Option (List (String × ContentNode))
  | 0 => fun _ _ => none
  | Nat.succ fuel => fun store i =>
    match heapGet store.heap i with
    | some (.complex c) =>
      let extPart : Option (List (String × ContentNode) × Nat) :=
        match c.extension with
        | none => some ([], 0)
        | some e =>
          match heapGet store.heap e with
          | some (.simple s) =>
            some ([(uniqueName 1, ContentNode.element (syntheticElement (uniqueName 1) e s))], 1)
          | some (.complex _) =>
            match ComplexType.elements_nested fuel store e with
            | none => none
            | some l => some (l, 1)
          | _ => none
      match extPart with
      | none => none
      | some (l, used) =>
        match c.element with
        | none => some l
        | some node => some (l ++ [(uniqueName (used + 1), node)])
    | _ => none

/-- The `ComplexType.elements` cached property: depth-first flattening
of `elements_nested` into `(element.name, element)` pairs, expanding a
composite node into its `elements`. -/
def flattenContent : List (String × ContentNode) → List (String × ElementNode)
  | [] => []
  | (_, ContentNode.element e) :: rest => (e.name, e) :: flattenContent rest
  | (_, ContentNode.group g) :: rest =>
    g.items.map (fun e => (e.name, e)) ++ flattenContent rest

/-- Last-wins lookup in a Python dict built by comprehension
(`{attr.name: attr for attr in self.attributes}`). -/
def attrMapGet (attrs : List Attr) (k : String) : Option Attr :=
  attrs.foldl (fun acc a => if a.name = k then some a else acc) none

/-- Python dict assignment `m[k] = v`: updates the value in place when
the key exists (keeping its position), appends otherwise. -/
def odSet {α : Type} (m : List (String × α)) (k : String) (v : α) : List (String × α) :=
  if m.any (fun p => p.1 = k) then
    m.map (fun p => if p.1 = k then (k, v) else p)
  else m ++ [(k, v)]

/-- Python `dict.update`. -/
def odMerge {α : Type} (m : List (String × α)) (adds : List (String × α)) : List (String × α) :=
  adds.foldl (fun acc p => odSet acc p.1 p.2) m

/-- The attribute-parsing loop of `ComplexType.parse_xmlelement`: walk
the XML element's attribute mapping in order, skip names that match no
declared attribute, decode the rest via the attribute's own parse. -/
def parseAttributes (attrs : List Attr) (xmlAttrib : List (String × String)) :
    List (String × Value) :=
  xmlAttrib.foldl (fun acc p =>
    match attrMapGet attrs p.1 with
    | none => acc
    | some a => odSet acc p.1 (a.parseF p.2)) []

/-- Dispatch of `element.parse_xmlelements(children, schema, name)` over
the two content-node shapes. -/
def ContentNode.parseChildren : ContentNode → List XmlNode → String → List (String × Value)
  | .element e, cs, n => e.parse_xmlelements cs n
  | .group g, cs, n => g.parse_xmlelements cs n

/-- `ComplexType.parse_xmlelement`: nil (`None`) for an element with no
attributes and no children; otherwise the compound value built from the
decoded attributes merged with the result of handing the full ordered
child list to every effective content node. -/
def ComplexType.parse_xmlelement (fuel : Nat) (store : Store) (i : Nat) (x : XmlNode) :
    Option Value :=
  match heapGet store.heap i with
  | some (.complex _) =>
    match x.children, x.attrib with
    | [], [] => some Value.pyNone
    | _, _ =>
      match ComplexType.attributes fuel store i, ComplexType.elements_nested fuel store i with
      | some attrs, some elems =>
        some (Value.compound
          (elems.foldl
            (fun acc p => odMerge acc (ContentNode.parseChildren p.2 x.children p.1))
            (parseAttributes attrs x.attrib)))
      | _, _ => none
  | _ => none

/-- `getattr(value, name, None)` on a compound value. -/
def getField : Value → String → Value
  | .compound fields, k =>
    fields.foldl (fun acc p => if p.1 = k then p.2 else acc) Value.pyNone
  | _, _ => .pyNone

/-- `ComplexType.serialize`: an ordered mapping built by walking
`elements_nested` in order; a composite node is iterated as a list of
sub-fields, a single element contributes its own field. -/
def ComplexType.serialize (fuel : Nat) (store : Store) (i : Nat) (value : Value) :
    Option (List (String × SerVal)) :=
  match heapGet store.heap i with
  | some (.complex _) =>
    match ComplexType.elements_nested fuel store i with
    | none => none
    | some elems =>
      some (elems.foldl
        (fun acc p =>
          match p.2 with
          | ContentNode.group g =>
            g.items.foldl
              (fun acc2 sub => odSet acc2 sub.name (sub.serializeF (getField value sub.name)))
              acc
          | ContentNode.element e =>
            odSet acc e.name (e.serializeF (getField value e.name)))
        [])
  | _ => none

/-- `ComplexType.signature`: comma-joined parts of the effective content
nodes (skipping a single element whose type is the very type being
signed) followed by the effective attributes. -/
def ComplexType.signature (fuel : Nat) (store : Store) (i : Nat) : Option String :=
  match heapGet store.heap i with
  | some (.complex _) =>
    match ComplexType.elements_nested fuel store i, ComplexType.attributes fuel store i with
    | some elems, some attrs =>
      let parts := elems.foldl
        (fun acc p =>
          match p.2 with
          | ContentNode.element e =>
            if e.typeRef = i then acc else acc ++ [e.signatureF]
          | ContentNode.group g => acc ++ [g.signatureF])
        []
      let parts2 := attrs.foldl (fun acc a => acc ++ [a.sig]) parts
      some (String.intercalate ", " parts2)
    | _, _ => none
  | _ => none

/-- Result of calling a `SimpleType` instance: the XML value, a Python
`TypeError` with its message, or the (unreachable under the guards)
`KeyError`. -/
inductive CallResult where
  | ok : String → CallResult
  | typeError : String → CallResult
  | keyError : String → CallResult

/-- Python `repr` of a short string (single quotes). -/
def pyQuote (k : String) : String :=
  String.singleton (Char.ofNat 39) ++ k ++ String.singleton (Char.ofNat 39)

/-- `SimpleType.__call__`: manual argument handling; exactly one
positional-or-keyword argument, and a lone keyword argument must be
named `value`. -/
def SimpleType.call (t : SimpleData) (args : List Value) (kwargs : List (String × Value)) :
    CallResult :=
  let numArgs := args.length + kwargs.length
  if numArgs ≠ 1 then
    .typeError (t.pyName ++ "() takes exactly 1 argument (" ++ toString numArgs ++
      " given). Simple types expect only a single value argument")
  else if kwargs.length ≠ 0 ∧ ¬ (kwargs.any (fun p => p.1 = "value") = true) then
    .typeError (t.pyName ++ "() got an unexpected keyword argument " ++
      pyQuote (match kwargs with | [] => "" | p :: _ => p.1) ++
      ". Simple types expect only a single value argument")
  else
    match args with
    | v :: _ => .ok (t.xmlvalueF v)
    | [] =>
      match kwargs.foldl (fun acc p => if p.1 = "value" then some p.2 else acc) none with
      | some v => .ok (t.xmlvalueF v)
      | none => .keyError "value"

/-- `ListType.xmlvalue`: encode each item via the item type's scalar
encoder and join with a single space (`None` models the Python crash
when the value is not iterable or the item type has no scalar encoder). -/
def ListType.xmlvalue (store : Store) (itemRef : Nat) (value : Value) : Option String :=
  match heapGet store.heap itemRef, value with
  | some (.simple s), .list items =>
    some (String.intercalate " " (items.map s.xmlvalueF))
  | _, _ => none

/-- `ListType.render`: set the parent node's text to `xmlvalue`. -/
def ListType.render (store : Store) (itemRef : Nat) (parent : XmlNode) (value : Value) :
    Option XmlNode :=
  match ListType.xmlvalue store itemRef value with
  | none => none
  | some t => some (parent.setText (some t))

/-- The element loop of `ComplexType.render`: a single element renders
the named field via its bound type (`recur`), a composite node renders
the whole value through its own contract. -/
def renderElemList (recur : Nat → XmlNode → Value → Option XmlNode) :
    List (String × ContentNode) → XmlNode → Value → Option XmlNode
  | [], parent, _ => some parent
  | (nm, ContentNode.element e) :: rest, parent, value =>
    match recur e.typeRef parent (getField value nm) with
    | none => none
    | some p2 => renderElemList recur rest p2 value
  | (_, ContentNode.group g) :: rest, parent, value =>
    renderElemList recur rest (g.renderF parent value) value

/-- Fuel-indexed `render` over the type graph: `SimpleType.render` sets
the text, `ListType.render` sets the joined text, `ComplexType.render`
renders the effective attributes then the effective content nodes. -/
def renderType : Nat → Store → Nat → XmlNode → Value → Option XmlNode
  | 0 => fun _ _ _ _ => none
  | Nat.succ fuel => fun store i parent value =>
    match heapGet store.heap i with
    | some (.simple s) => some (parent.setText (some (s.xmlvalueF value)))
    | some (.listT itemRef) => ListType.render store itemRef parent value
    | some (.complex _) =>
      match ComplexType.attributes fuel store i, ComplexType.elements_nested fuel store i with
      | some attrs, some elems =>
        renderElemList (fun t p v => renderType fuel store t p v) elems
          (attrs.foldl (fun acc a => a.renderF acc (getField value a.name)) parent) value
      | _, _ => none
    | _ => none

/-- `ComplexType.render` with the optional `xsd_type` argument: after
all fields are written, an explicit subtype sets the `xsi:type`
attribute on the parent. -/
def ComplexType.render (fuel : Nat) (store : Store) (i : Nat) (parent : XmlNode)
    (value : Value) (xsdTypeName : Option String) : Option XmlNode :=
  match renderType fuel store i parent value with
  | none => none
  | some p =>
    match xsdTypeName with
    | none => some p
    | some nm =>
      some (p.setAttrib "\x7bhttp://www.w3.org/2001/XMLSchema-instance\x7dtype" nm)

/-- Outcome of invoking an operation on a type variant: the spec's
`AbstractMethodError` covers both a base-class method body that raises
`NotImplementedError` and an operation absent from the class entirely
(`UnionType` does not subclass `Type`). -/
inductive Marshal (α : Type) where
  | ok : α → Marshal α
  | abstractMethodError : Marshal α

/-- Invoking `parse_xmlelement`: implemented by `SimpleType` (nil when
the element has no text, scalar decode otherwise) and by `ComplexType`;
every other variant only inherits the raising `Type.parse_xmlelement`
(or, for `UnionType`, has no such operation at all). -/
def invokeParse (fuel : Nat) (store : Store) (i : Nat) (x : XmlNode) :
    Marshal (Option Value) :=
  match heapGet store.heap i with
  | some (.simple s) =>
    .ok (some (match x.text with
      | none => Value.pyNone
      | some t => s.pythonvalueF t))
  | some (.complex _) => .ok (ComplexType.parse_xmlelement fuel store i x)
  | some (.unresolvedRef _) => .abstractMethodError
  | some (.unresolvedCustom _ _) => .abstractMethodError
  | some (.listT _) => .abstractMethodError
  | some (.unionT _) => .abstractMethodError
  | none => .abstractMethodError

/-- Invoking `render`: implemented by `SimpleType`, `ComplexType` and
`ListType`; the unresolved placeholders only inherit the raising
`Type.render`, and `UnionType` has no render operation. -/
def invokeRender (fuel : Nat) (store : Store) (i : Nat) (parent : XmlNode) (value : Value) :
    Marshal (Option XmlNode) :=
  match heapGet store.heap i with
  | some (.simple _) => .ok (renderType (fuel + 1) store i parent value)
  | some (.complex _) => .ok (renderType (fuel + 1) store i parent value)
  | some (.listT _) => .ok (renderType (fuel + 1) store i parent value)
  | some (.unresolvedRef _) => .abstractMethodError
  | some (.unresolvedCustom _ _) => .abstractMethodError
  | some (.unionT _) => .abstractMethodError
  | none => .abstractMethodError

/-- Invoking `serialize`: `SimpleType.serialize` returns the value
unchanged, `ComplexType.serialize` returns the ordered mapping; no other
variant defines a serialize operation. -/
def invokeSerialize (fuel : Nat) (store : Store) (i : Nat) (value : Value) :
    Marshal (Option SerVal) :=
  match heapGet store.heap i with
  | some (.simple _) => .ok (some (SerVal.prim value))
  | some (.complex _) => .ok ((ComplexType.serialize fuel store i value).map SerVal.dict)
  | some (.unresolvedRef _) => .abstractMethodError
  | some (.unresolvedCustom _ _) => .abstractMethodError
  | some (.listT _) => .abstractMethodError
  | some (.unionT _) => .abstractMethodError
  | none => .abstractMethodError

/-! ### Heap lemmas -/

theorem heapGet_heapSet_ne (h : List (Nat × TypeRec)) (j i : Nat) (v : TypeRec)
    (hne : j ≠ i) : heapGet (heapSet h j v) i = heapGet h i := by
  induction h with
  | nil => rfl
  | cons p rest ih =>
    obtain ⟨k, r⟩ := p
    simp only [heapSet]
    by_cases hk : k = j
    · subst hk
      simp only [if_pos rfl, heapGet, if_neg hne]
    · simp only [if_neg hk, heapGet]
      by_cases hki : k = i
      · simp only [if_pos hki]
      · simp only [if_neg hki, ih]

theorem heapGet_heapSet_self (h : List (Nat × TypeRec)) (i : Nat) (v : TypeRec)
    (hex : (heapGet h i).isSome) : heapGet (heapSet h i v) i = some v := by
  induction h with
  | nil => simp [heapGet] at hex
  | cons p rest ih =>
    obtain ⟨k, r⟩ := p
    simp only [heapSet]
    by_cases hk : k = i
    · simp only [if_pos hk, heapGet]
    · simp only [if_neg hk, heapGet]
      simp only [heapGet, if_neg hk] at hex
      exact ih hex

theorem heapGet_append_left (h l : List (Nat × TypeRec)) (i : Nat) (r : TypeRec)
    (hg : heapGet h i = some r) : heapGet (h ++ l) i = some r := by
  induction h with
  | nil => simp [heapGet] at hg
  | cons p rest ih =>
    obtain ⟨k, r'⟩ := p
    simp only [heapGet] at hg ⊢
    by_cases hk : k = i
    · simpa [if_pos hk] using hg
    · simp only [if_neg hk] at hg ⊢
      exact ih hg

theorem heapGet_le_maxKey (h : List (Nat × TypeRec)) (i : Nat) (r : TypeRec)
    (hg : heapGet h i = some r) : i ≤ maxKey h := by
  induction h with
  | nil => simp [heapGet] at hg
  | cons p rest ih =>
    obtain ⟨k, r'⟩ := p
    simp only [heapGet] at hg
    simp only [maxKey]
    by_cases hk : k = i
    · subst hk
      exact le_max_left _ _
    · simp only [if_neg hk] at hg
      exact le_trans (ih hg) (le_max_right _ _)

theorem heapGet_fresh_none (h : List (Nat × TypeRec)) :
    heapGet h (maxKey h + 1) = none := by
  cases hg : heapGet h (maxKey h + 1) with
  | none => rfl
  | some r => exact absurd (heapGet_le_maxKey h _ r hg) (by omega)

/-! ### The resolved-flag invariant and its preservation -/

/-- The object `i` is a `ComplexType` whose `_resolved` flag is set. -/
def ResolvedAt (store : Store) (i : Nat) : Prop :=
  ∃ c : ComplexData, heapGet store.heap i = some (TypeRec.complex c) ∧ c.resolved = true

/-- `recur` preserves the invariant at `i`. -/
def PreservesAt (i : Nat) (recur : Nat → Store → Option (Nat × Store)) : Prop :=
  ∀ (j : Nat) (s : Store) (r : Nat) (s' : Store),
    ResolvedAt s i → recur j s = some (r, s') → ResolvedAt s' i

theorem resolvedAt_heapSet_ne (s : Store) (i j : Nat) (v : TypeRec) (hne : j ≠ i)
    (h : ResolvedAt s i) : ResolvedAt { s with heap := heapSet s.heap j v } i := by
  obtain ⟨c, hc, hr⟩ := h
  exact ⟨c, by simpa [heapGet_heapSet_ne s.heap j i v hne] using hc, hr⟩

theorem resolvedAt_alloc (s : Store) (i : Nat) (r : TypeRec)
    (h : ResolvedAt s i) : ResolvedAt (alloc s r).2 i := by
  obtain ⟨c, hc, hr⟩ := h
  exact ⟨c, heapGet_append_left s.heap _ i _ hc, hr⟩

theorem resolvedAt_updateComplex_ne (s : Store) (i j : Nat) (f : ComplexData → ComplexData)
    (hne : j ≠ i) (h : ResolvedAt s i) : ResolvedAt (updateComplex s j f) i := by
  unfold updateComplex
  cases hg : heapGet s.heap j with
  | none => exact h
  | some r =>
    cases r with
    | complex c => exact resolvedAt_heapSet_ne s i j _ hne h
    | simple sd => exact h
    | unresolvedRef q => exact h
    | unresolvedCustom nm b => exact h
    | listT t => exact h
    | unionT ts => exact h

theorem resolvedAt_updateComplex_self (s : Store) (i : Nat) (f : ComplexData → ComplexData)
    (hf : ∀ c, (f c).resolved = c.resolved) (h : ResolvedAt s i) :
    ResolvedAt (updateComplex s i f) i := by
  obtain ⟨c, hc, hr⟩ := h
  unfold updateComplex
  rw [hc]
  refine ⟨f c, ?_, by rw [hf c]; exact hr⟩
  exact heapGet_heapSet_self s.heap i _ (by simp [hc])

theorem preservesAt_resolveOptRef (i : Nat) (recur : Nat → Store → Option (Nat × Store))
    (hrec : PreservesAt i recur) (o : Option Nat) (s : Store) (p : Option Nat) (s' : Store)
    (hres : ResolvedAt s i) (h : resolveOptRef recur o s = some (p, s')) :
    ResolvedAt s' i := by
  cases o with
  | none =>
    simp only [resolveOptRef, Option.some.injEq, Prod.mk.injEq] at h
    obtain ⟨h1, h2⟩ := h
    subst h2
    exact hres
  | some e =>
    simp only [resolveOptRef] at h
    cases hr : recur e s with
    | none =>
      simp only [hr] at h
      exact Option.noConfusion h
    | some q =>
      obtain ⟨e2, s2⟩ := q
      simp only [hr, Option.some.injEq, Prod.mk.injEq] at h
      obtain ⟨h1, h2⟩ := h
      subst h2
      exact hrec e s e2 s2 hres hr

theorem preservesAt_resolveElemList (i : Nat) (recur : Nat → Store → Option (Nat × Store))
    (hrec : PreservesAt i recur) :
    ∀ (l : List ElementNode) (s : Store) (l' : List ElementNode) (s' : Store),
      ResolvedAt s i → resolveElemList recur l s = some (l', s') → ResolvedAt s' i := by
  intro l
  induction l with
  | nil =>
    intro s l' s' hres h
    simp only [resolveElemList, Option.some.injEq, Prod.mk.injEq] at h
    obtain ⟨h1, h2⟩ := h
    subst h2
    exact hres
  | cons e rest ih =>
    intro s l' s' hres h
    simp only [resolveElemList] at h
    cases hr : recur e.typeRef s with
    | none =>
      simp only [hr] at h
      exact Option.noConfusion h
    | some q =>
      obtain ⟨t2, s2⟩ := q
      simp only [hr] at h
      cases hr2 : resolveElemList recur rest s2 with
      | none =>
        simp only [hr2] at h
        exact Option.noConfusion h
      | some q2 =>
        obtain ⟨rest2, s3⟩ := q2
        simp only [hr2, Option.some.injEq, Prod.mk.injEq] at h
        obtain ⟨h1, h2⟩ := h
        subst h2
        exact ih s2 rest2 s3 (hrec _ s t2 s2 hres hr) hr2

theorem preservesAt_resolveNode (i : Nat) (recur : Nat → Store → Option (Nat × Store))
    (hrec : PreservesAt i recur) (n : ContentNode) (s : Store) (n' : ContentNode) (s' : Store)
    (hres : ResolvedAt s i) (h : resolveNode recur n s = some (n', s')) :
    ResolvedAt s' i := by
  cases n with
  | element e =>
    simp only [resolveNode] at h
    cases hr : recur e.typeRef s with
    | none =>
      simp only [hr] at h
      exact Option.noConfusion h
    | some q =>
      obtain ⟨t2, s2⟩ := q
      simp only [hr, Option.some.injEq, Prod.mk.injEq] at h
      obtain ⟨h1, h2⟩ := h
      subst h2
      exact hrec _ s t2 s2 hres hr
  | group g =>
    simp only [resolveNode] at h
    cases hr : resolveElemList recur g.items s with
    | none =>
      simp only [hr] at h
      exact Option.noConfusion h
    | some q =>
      obtain ⟨items2, s2⟩ := q
      simp only [hr, Option.some.injEq, Prod.mk.injEq] at h
      obtain ⟨h1, h2⟩ := h
      subst h2
      exact preservesAt_resolveElemList i recur hrec g.items s items2 s2 hres hr

theorem preservesAt_resolveOptNode (i : Nat) (recur : Nat → Store → Option (Nat × Store))
    (hrec : PreservesAt i recur) (o : Option ContentNode) (s : Store)
    (p : Option ContentNode) (s' : Store)
    (hres : ResolvedAt s i) (h : resolveOptNode recur o s = some (p, s')) :
    ResolvedAt s' i := by
  cases o with
  | none =>
    simp only [resolveOptNode, Option.some.injEq, Prod.mk.injEq] at h
    obtain ⟨h1, h2⟩ := h
    subst h2
    exact hres
  | some n =>
    simp only [resolveOptNode] at h
    cases hr : resolveNode recur n s with
    | none =>
      simp only [hr] at h
      exact Option.noConfusion h
    | some q =>
      obtain ⟨n2, s2⟩ := q
      simp only [hr, Option.some.injEq, Prod.mk.injEq] at h
      obtain ⟨h1, h2⟩ := h
      subst h2
      exact preservesAt_resolveNode i recur hrec n s n2 s2 hres hr

theorem preservesAt_resolveAttrList (i : Nat) (recur : Nat → Store → Option (Nat × Store))
    (hrec : PreservesAt i recur) :
    ∀ (l : List Attr) (s : Store) (l' : List Attr) (s' : Store),
      ResolvedAt s i → resolveAttrList recur l s = some (l', s') → ResolvedAt s' i := by
  intro l
  induction l with
  | nil =>
    intro s l' s' hres h
    simp only [resolveAttrList, Option.some.injEq, Prod.mk.injEq] at h
    obtain ⟨h1, h2⟩ := h
    subst h2
    exact hres
  | cons a rest ih =>
    intro s l' s' hres h
    simp only [resolveAttrList] at h
    cases hr : recur a.typeRef s with
    | none =>
      simp only [hr] at h
      exact Option.noConfusion h
    | some q =>
      obtain ⟨t2, s2⟩ := q
      simp only [hr] at h
      cases hr2 : resolveAttrList recur rest s2 with
      | none =>
        simp only [hr2] at h
        exact Option.noConfusion h
      | some q2 =>
        obtain ⟨rest2, s3⟩ := q2
        simp only [hr2, Option.some.injEq, Prod.mk.injEq] at h
        obtain ⟨h1, h2⟩ := h
        subst h2
        exact ih s2 rest2 s3 (hrec _ s t2 s2 hres hr) hr2

theorem preservesAt_resolveRefList (i : Nat) (recur : Nat → Store → Option (Nat × Store))
    (hrec : PreservesAt i recur) :
    ∀ (l : List Nat) (s : Store) (l' : List Nat) (s' : Store),
      ResolvedAt s i → resolveRefList recur l s = some (l', s') → ResolvedAt s' i := by
  intro l
  induction l with
  | nil =>
    intro s l' s' hres h
    simp only [resolveRefList, Option.some.injEq, Prod.mk.injEq] at h
    obtain ⟨h1, h2⟩ := h
    subst h2
    exact hres
  | cons t rest ih =>
    intro s l' s' hres h
    simp only [resolveRefList] at h
    cases hr : recur t s with
    | none =>
      simp only [hr] at h
      exact Option.noConfusion h
    | some q =>
      obtain ⟨t2, s2⟩ := q
      simp only [hr] at h
      cases hr2 : resolveRefList recur rest s2 with
      | none =>
        simp only [hr2] at h
        exact Option.noConfusion h
      | some q2 =>
        obtain ⟨rest2, s3⟩ := q2
        simp only [hr2, Option.some.injEq, Prod.mk.injEq] at h
        obtain ⟨h1, h2⟩ := h
        subst h2
        exact ih s2 rest2 s3 (hrec _ s t2 s2 hres hr) hr2

theorem preservesAt_resolveComplexTail (i : Nat) (recur : Nat → Store → Option (Nat × Store))
    (hrec : PreservesAt i recur) (j : Nat) (hne : j ≠ i) (c : ComplexData)
    (s1 : Store) (r : Nat) (s' : Store) (hres1 : ResolvedAt s1 i)
    (h : resolveComplexTail recur j c s1 = some (r, s')) : ResolvedAt s' i := by
  unfold resolveComplexTail at h
  cases hE : resolveOptRef recur c.extension s1 with
  | none =>
    simp only [hE] at h
    exact Option.noConfusion h
  | some q =>
    obtain ⟨ext2, s2⟩ := q
    simp only [hE] at h
    have hres2 : ResolvedAt s2 i :=
      preservesAt_resolveOptRef i recur hrec c.extension s1 ext2 s2 hres1 hE
    have hres3 : ResolvedAt (updateComplex s2 j (fun cc => { cc with extension := ext2 })) i :=
      resolvedAt_updateComplex_ne s2 i j _ hne hres2
    cases hR : resolveOptRef recur c.restriction
        (updateComplex s2 j (fun cc => { cc with extension := ext2 })) with
    | none =>
      simp only [hR] at h
      exact Option.noConfusion h
    | some q2 =>
      obtain ⟨restr2, s4⟩ := q2
      simp only [hR] at h
      have hres4 : ResolvedAt s4 i :=
        preservesAt_resolveOptRef i recur hrec c.restriction _ restr2 s4 hres3 hR
      have hres5 : ResolvedAt (updateComplex s4 j (fun cc => { cc with restriction := restr2 })) i :=
        resolvedAt_updateComplex_ne s4 i j _ hne hres4
      cases hN : resolveOptNode recur c.element
          (updateComplex s4 j (fun cc => { cc with restriction := restr2 })) with
      | none =>
        simp only [hN] at h
        exact Option.noConfusion h
      | some q3 =>
        obtain ⟨elem2, s6⟩ := q3
        simp only [hN] at h
        have hres6 : ResolvedAt s6 i :=
          preservesAt_resolveOptNode i recur hrec c.element _ elem2 s6 hres5 hN
        have hres7 : ResolvedAt (updateComplex s6 j (fun cc => { cc with element := elem2 })) i :=
          resolvedAt_updateComplex_ne s6 i j _ hne hres6
        cases hA : resolveAttrList recur c.attributes
            (updateComplex s6 j (fun cc => { cc with element := elem2 })) with
        | none =>
          simp only [hA] at h
          exact Option.noConfusion h
        | some q4 =>
          obtain ⟨attrs2, s8⟩ := q4
          simp only [hA, Option.some.injEq, Prod.mk.injEq] at h
          obtain ⟨h1, h2⟩ := h
          subst h2
          have hres8 : ResolvedAt s8 i :=
            preservesAt_resolveAttrList i recur hrec c.attributes _ attrs2 s8 hres7 hA
          exact resolvedAt_updateComplex_ne s8 i j _ hne hres8

/-- The same walk at the object being resolved itself: each write-back
keeps the `_resolved` flag set, so the walk returns `self` with the flag
still set. -/
theorem rootFlag_resolveComplexTail (i : Nat) (recur : Nat → Store → Option (Nat × Store))
    (hrec : PreservesAt i recur) (c : ComplexData)
    (s1 : Store) (r : Nat) (s' : Store) (hres1 : ResolvedAt s1 i)
    (h : resolveComplexTail recur i c s1 = some (r, s')) : r = i ∧ ResolvedAt s' i := by
  unfold resolveComplexTail at h
  cases hE : resolveOptRef recur c.extension s1 with
  | none =>
    simp only [hE] at h
    exact Option.noConfusion h
  | some q =>
    obtain ⟨ext2, s2⟩ := q
    simp only [hE] at h
    have hres2 : ResolvedAt s2 i :=
      preservesAt_resolveOptRef i recur hrec c.extension s1 ext2 s2 hres1 hE
    have hres3 : ResolvedAt (updateComplex s2 i (fun cc => { cc with extension := ext2 })) i :=
      resolvedAt_updateComplex_self s2 i _ (fun cc => rfl) hres2
    cases hR : resolveOptRef recur c.restriction
        (updateComplex s2 i (fun cc => { cc with extension := ext2 })) with
    | none =>
      simp only [hR] at h
      exact Option.noConfusion h
    | some q2 =>
      obtain ⟨restr2, s4⟩ := q2
      simp only [hR] at h
      have hres4 : ResolvedAt s4 i :=
        preservesAt_resolveOptRef i recur hrec c.restriction _ restr2 s4 hres3 hR
      have hres5 : ResolvedAt (updateComplex s4 i (fun cc => { cc with restriction := restr2 })) i :=
        resolvedAt_updateComplex_self s4 i _ (fun cc => rfl) hres4
      cases hN : resolveOptNode recur c.element
          (updateComplex s4 i (fun cc => { cc with restriction := restr2 })) with
      | none =>
        simp only [hN] at h
        exact Option.noConfusion h
      | some q3 =>
        obtain ⟨elem2, s6⟩ := q3
        simp only [hN] at h
        have hres6 : ResolvedAt s6 i :=
          preservesAt_resolveOptNode i recur hrec c.element _ elem2 s6 hres5 hN
        have hres7 : ResolvedAt (updateComplex s6 i (fun cc => { cc with element := elem2 })) i :=
          resolvedAt_updateComplex_self s6 i _ (fun cc => rfl) hres6
        cases hA : resolveAttrList recur c.attributes
            (updateComplex s6 i (fun cc => { cc with element := elem2 })) with
        | none =>
          simp only [hA] at h
          exact Option.noConfusion h
        | some q4 =>
          obtain ⟨attrs2, s8⟩ := q4
          simp only [hA, Option.some.injEq, Prod.mk.injEq] at h
          obtain ⟨h1, h2⟩ := h
          subst h2
          have hres8 : ResolvedAt s8 i :=
            preservesAt_resolveAttrList i recur hrec c.attributes _ attrs2 s8 hres7 hA
          exact ⟨h1.symm, resolvedAt_updateComplex_self s8 i _ (fun cc => rfl) hres8⟩

theorem preservesAt_resolveStep (i : Nat) (recur : Nat → Store → Option (Nat × Store))
    (hrec : PreservesAt i recur) : PreservesAt i (resolveStep recur) := by
  intro j s r s' hres h
  unfold resolveStep at h
  cases hj : heapGet s.heap j with
  | none =>
    simp only [hj] at h
    exact Option.noConfusion h
  | some t =>
    cases t with
    | simple sd =>
      simp only [hj, Option.some.injEq, Prod.mk.injEq] at h
      obtain ⟨h1, h2⟩ := h
      subst h2
      exact hres
    | unresolvedRef q =>
      simp only [hj] at h
      cases hq : registryGet s.registry q with
      | none =>
        simp only [hq] at h
        exact Option.noConfusion h
      | some tid =>
        simp only [hq] at h
        exact hrec tid s r s' hres h
    | unresolvedCustom nm baseRef =>
      simp only [hj] at h
      cases hb : heapGet s.heap baseRef with
      | none =>
        simp only [hb] at h
        exact Option.noConfusion h
      | some tb =>
        cases tb with
        | unresolvedRef qb =>
          simp only [hb] at h
          cases hrb : recur baseRef s with
          | none =>
            simp only [hrb] at h
            exact Option.noConfusion h
          | some q1 =>
            obtain ⟨b, s1⟩ := q1
            simp only [hrb] at h
            have hres1 : ResolvedAt s1 i := hrec baseRef s b s1 hres hrb
            cases hgb : heapGet s1.heap b with
            | none =>
              simp only [hgb] at h
              exact Option.noConfusion h
            | some tb2 =>
              cases tb2 with
              | simple s0 =>
                simp only [hgb, alloc, Option.some.injEq, Prod.mk.injEq] at h
                obtain ⟨h1, h2⟩ := h
                subst h2
                obtain ⟨ci, hci, hri⟩ := hres1
                exact ⟨ci, heapGet_append_left _ _ _ _ hci, hri⟩
              | complex c0 =>
                simp only [hgb, alloc, Option.some.injEq, Prod.mk.injEq] at h
                obtain ⟨h1, h2⟩ := h
                subst h2
                obtain ⟨ci, hci, hri⟩ := hres1
                exact ⟨ci, heapGet_append_left _ _ _ _ hci, hri⟩
              | unresolvedRef q2 =>
                simp only [hgb] at h
                exact Option.noConfusion h
              | unresolvedCustom nm2 b2 =>
                simp only [hgb] at h
                exact Option.noConfusion h
              | listT t2 =>
                simp only [hgb] at h
                exact Option.noConfusion h
              | unionT ts =>
                simp only [hgb] at h
                exact Option.noConfusion h
        | simple s0 =>
          simp only [hb, alloc, Option.some.injEq, Prod.mk.injEq] at h
          obtain ⟨h1, h2⟩ := h
          subst h2
          obtain ⟨ci, hci, hri⟩ := hres
          exact ⟨ci, heapGet_append_left _ _ _ _ hci, hri⟩
        | complex c0 =>
          simp only [hb, alloc, Option.some.injEq, Prod.mk.injEq] at h
          obtain ⟨h1, h2⟩ := h
          subst h2
          obtain ⟨ci, hci, hri⟩ := hres
          exact ⟨ci, heapGet_append_left _ _ _ _ hci, hri⟩
        | unresolvedCustom nm2 b2 =>
          simp only [hb] at h
          exact Option.noConfusion h
        | listT t2 =>
          simp only [hb] at h
          exact Option.noConfusion h
        | unionT ts =>
          simp only [hb] at h
          exact Option.noConfusion h
    | complex c =>
      simp only [hj] at h
      cases hcr : c.resolved with
      | true =>
        simp only [hcr, if_true, Option.some.injEq, Prod.mk.injEq] at h
        obtain ⟨h1, h2⟩ := h
        subst h2
        exact hres
      | false =>
        simp only [hcr, Bool.false_eq_true, if_false] at h
        have hne : j ≠ i := by
          intro e
          subst e
          obtain ⟨ci, hci, hri⟩ := hres
          rw [hj] at hci
          simp only [Option.some.injEq, TypeRec.complex.injEq] at hci
          rw [hci] at hcr
          rw [hri] at hcr
          exact Bool.noConfusion hcr
        have hres1 : ResolvedAt
            { s with heap := heapSet s.heap j (TypeRec.complex { c with resolved := true }) } i :=
          resolvedAt_heapSet_ne s i j _ hne hres
        exact preservesAt_resolveComplexTail i recur hrec j hne c _ r s' hres1 h
    | listT itemRef =>
      simp only [hj] at h
      cases hL : recur itemRef s with
      | none =>
        simp only [hL] at h
        exact Option.noConfusion h
      | some q1 =>
        obtain ⟨t2, s2⟩ := q1
        simp only [hL, Option.some.injEq, Prod.mk.injEq] at h
        obtain ⟨h1, h2⟩ := h
        subst h2
        have hne : j ≠ i := by
          intro e
          subst e
          obtain ⟨ci, hci, hri⟩ := hres
          rw [hj] at hci
          simp only [Option.some.injEq] at hci
          exact TypeRec.noConfusion hci
        exact resolvedAt_heapSet_ne s2 i j _ hne (hrec itemRef s t2 s2 hres hL)
    | unionT refs =>
      simp only [hj] at h
      cases hU : resolveRefList recur refs s with
      | none =>
        simp only [hU] at h
        exact Option.noConfusion h
      | some q1 =>
        obtain ⟨refs2, s2⟩ := q1
        simp only [hU, Option.some.injEq, Prod.mk.injEq] at h
        obtain ⟨h1, h2⟩ := h
        subst h2
        have hne : j ≠ i := by
          intro e
          subst e
          obtain ⟨ci, hci, hri⟩ := hres
          rw [hj] at hci
          simp only [Option.some.injEq] at hci
          exact TypeRec.noConfusion hci
        exact resolvedAt_heapSet_ne s2 i j _ hne
          (preservesAt_resolveRefList i recur hrec refs s refs2 s2 hres hU)

/-- A whole `resolve` walk never unsets a set `_resolved` flag: a
complex record that is resolved stays resolved through any other
resolution. -/
theorem preservesAt_resolveFuel (i : Nat) :
    ∀ fuel : Nat, PreservesAt i (resolveFuel fuel) := by
  intro fuel
  induction fuel with
  | zero =>
    intro j s r s' hres h
    exact Option.noConfusion h
  | succ fuel ih =>
    exact preservesAt_resolveStep i (resolveFuel fuel) ih

/-- Calling `resolve` on an already-resolved `ComplexType` is a guarded
immediate return: same object, untouched store, no recursion consumed. -/
theorem resolveFuel_noop (fuel : Nat) (store : Store) (i : Nat) (c : ComplexData)
    (hget : heapGet store.heap i = some (TypeRec.complex c)) (hres : c.resolved = true) :
    resolveFuel (fuel + 1) i store = some (i, store) := by
  show resolveStep (resolveFuel fuel) i store = some (i, store)
  unfold resolveStep
  simp only [hget, hres, if_true]

/-- A successful `resolve` of a `ComplexType` returns `self` and leaves
its `_resolved` flag set (the flag is set before any sub-resolution, and
no sub-resolution can clear it). -/
theorem resolveFuel_complex_flag (fuel : Nat) (store : Store) (i : Nat) (c : ComplexData)
    (hget : heapGet store.heap i = some (TypeRec.complex c))
    (r : Nat) (store2 : Store)
    (h : resolveFuel fuel i store = some (r, store2)) :
    r = i ∧ ResolvedAt store2 i := by
  cases fuel with
  | zero => exact Option.noConfusion h
  | succ fuel =>
    have h' : resolveStep (resolveFuel fuel) i store = some (r, store2) := h
    unfold resolveStep at h'
    simp only [hget] at h'
    cases hcr : c.resolved with
    | true =>
      simp only [hcr, if_true, Option.some.injEq, Prod.mk.injEq] at h'
      obtain ⟨h1, h2⟩ := h'
      subst h2
      exact ⟨h1.symm, ⟨c, hget, hcr⟩⟩
    | false =>
      simp only [hcr, Bool.false_eq_true, if_false] at h'
      have hres1 : ResolvedAt
          { store with heap := heapSet store.heap i (TypeRec.complex { c with resolved := true }) } i := by
        refine ⟨{ c with resolved := true }, ?_, rfl⟩
        exact heapGet_heapSet_self store.heap i _ (by simp [hget])
      exact rootFlag_resolveComplexTail i (resolveFuel fuel)
        (preservesAt_resolveFuel i fuel) c _ r store2 hres1 h'

/-- C1: `ComplexType.resolve` is idempotent and cycle-terminating.  Any
successful resolve of a `ComplexType` — including one whose extension or
element references lead back to itself through a chain — returns the
very same object with its `_resolved` flag set, and a second resolve of
that object returns the identical object and identical store while
consuming only a single step (no further graph walk). -/
theorem complexType_resolve_idempotent (fuel fuel2 : Nat) (store store2 : Store)
    (i r : Nat) (c : ComplexData)
    (hget : heapGet store.heap i = some (TypeRec.complex c))
    (hres : resolveFuel fuel i store = some (r, store2)) :
    r = i ∧ ResolvedAt store2 i ∧
      resolveFuel (fuel2 + 1) r store2 = some (r, store2) := by
  obtain ⟨h1, h2⟩ := resolveFuel_complex_flag fuel store i c hget r store2 hres
  subst h1
  obtain ⟨c2, hg2, hr2⟩ := h2
  exact ⟨rfl, ⟨c2, hg2, hr2⟩, resolveFuel_noop fuel2 store2 r c2 hg2 hr2⟩

/-- Two complex types extending each other: a cyclic extension chain. -/
def cyclicA : ComplexData :=
  { pyName := "A", element := none, attributes := [], restriction := none,
    extension := some 2, resolved := false }

def cyclicB : ComplexData :=
  { pyName := "B", element := none, attributes := [], restriction := none,
    extension := some 1, resolved := false }

def cyclicStore : Store :=
  { heap := [(1, TypeRec.complex cyclicA), (2, TypeRec.complex cyclicB)], registry := [] }

def cyclicStoreResolved : Store :=
  { heap := [(1, TypeRec.complex { cyclicA with resolved := true }),
             (2, TypeRec.complex { cyclicB with resolved := true })], registry := [] }

/-- C1 witness: on the concrete two-type cyclic extension graph, one
resolve succeeds and a second resolve with a single unit of fuel returns
the same object and store. -/
theorem complexType_resolve_idempotent_witness :
    heapGet cyclicStore.heap 1 = some (TypeRec.complex cyclicA) ∧
    resolveFuel 3 1 cyclicStore = some (1, cyclicStoreResolved) ∧
    (1 = 1 ∧ ResolvedAt cyclicStoreResolved 1 ∧
      resolveFuel 1 1 cyclicStoreResolved = some (1, cyclicStoreResolved)) :=
  ⟨rfl, rfl,
    complexType_resolve_idempotent 3 0 cyclicStore cyclicStoreResolved 1 1 cyclicA rfl rfl⟩

/-! ### C2: UnresolvedCustomType.resolve -/

def c2AttrX : Attr :=
  { name := "x", typeRef := 1, parseF := fun s => Value.str s,
    renderF := fun p _ => p, sig := "x: string" }

def c2Base : ComplexData :=
  { pyName := "Base", element := none, attributes := [c2AttrX], restriction := none,
    extension := none, resolved := true }

def c2Store : Store :=
  { heap := [(1, TypeRec.complex c2Base), (2, TypeRec.unresolvedCustom "Alias" 1)],
    registry := [] }

def c2StoreAfter : Store :=
  { heap := [(1, TypeRec.complex c2Base), (2, TypeRec.unresolvedCustom "Alias" 1),
             (3, TypeRec.complex (emptyComplexData "Alias"))],
    registry := [] }

/-- C2 counterexample: resolving an `UnresolvedCustomType` whose base
reference resolves to a `ComplexType` carrying one attribute synthesizes
a fresh *default* instance (the dynamic subclass is instantiated with no
arguments), so the synthesized type's effective attributes are empty and
differ from the resolved base's — the claim's "same effective attributes
and content as the resolved base" fails. -/
theorem unresolvedCustom_structure_lost :
    resolveFuel 1 2 c2Store = some (3, c2StoreAfter) ∧
    ComplexType.attributes 1 c2StoreAfter 3 = some [] ∧
    ComplexType.attributes 1 c2StoreAfter 1 = some [c2AttrX] ∧
    ComplexType.attributes 1 c2StoreAfter 3 ≠ ComplexType.attributes 1 c2StoreAfter 1 := by
  refine ⟨rfl, rfl, rfl, ?_⟩
  intro h
  rw [show ComplexType.attributes 1 c2StoreAfter 3 = some [] from rfl,
      show ComplexType.attributes 1 c2StoreAfter 1 = some [c2AttrX] from rfl] at h
  simp at h

/-- C2 (amended): when the base reference resolves to a `SimpleType`,
`UnresolvedCustomType.resolve` synthesizes a fresh type object
(distinct identity: an identifier unused by the heap, in particular not
the base's) carrying the given name and the base's entire class-level
behaviour — same scalar encode/decode and same `name` class attribute,
no added fields; a `ComplexType` base's instance-level structure is not
carried over. -/
theorem unresolvedCustom_resolve_simple_base (fuel : Nat) (store : Store)
    (i b : Nat) (nm : String) (s : SimpleData)
    (hid : heapGet store.heap i = some (TypeRec.unresolvedCustom nm b))
    (hb : heapGet store.heap b = some (TypeRec.simple s)) :
    resolveFuel (fuel + 1) i store =
      some (maxKey store.heap + 1,
        { store with heap :=
            store.heap ++ [(maxKey store.heap + 1, TypeRec.simple { s with pyName := nm })] }) ∧
    heapGet store.heap (maxKey store.heap + 1) = none ∧
    maxKey store.heap + 1 ≠ b := by
  refine ⟨?_, heapGet_fresh_none store.heap, ?_⟩
  · show resolveStep (resolveFuel fuel) i store = _
    unfold resolveStep
    simp only [hid, hb, alloc]
  · intro e
    have hle := heapGet_le_maxKey store.heap b _ hb
    omega

def c2SimpleInt : SimpleData :=
  { pyName := "Integer", name := some "integer",
    xmlvalueF := fun v => match v with | Value.int n => toString n | _ => "",
    pythonvalueF := fun t => Value.str t }

def c2StoreS : Store :=
  { heap := [(1, TypeRec.simple c2SimpleInt), (2, TypeRec.unresolvedCustom "MyInt" 1)],
    registry := [] }

/-- C2 witness: a concrete custom type over a simple base resolves to a
fresh identifier carrying the given name and the base's behaviour. -/
theorem unresolvedCustom_resolve_simple_base_witness :
    heapGet c2StoreS.heap 2 = some (TypeRec.unresolvedCustom "MyInt" 1) ∧
    heapGet c2StoreS.heap 1 = some (TypeRec.simple c2SimpleInt) ∧
    (resolveFuel 1 2 c2StoreS =
      some (maxKey c2StoreS.heap + 1,
        { c2StoreS with heap :=
            c2StoreS.heap ++ [(maxKey c2StoreS.heap + 1,
              TypeRec.simple { c2SimpleInt with pyName := "MyInt" })] }) ∧
    heapGet c2StoreS.heap (maxKey c2StoreS.heap + 1) = none ∧
    maxKey c2StoreS.heap + 1 ≠ 1) :=
  ⟨rfl, rfl,
    unresolvedCustom_resolve_simple_base 0 c2StoreS 2 1 "MyInt" c2SimpleInt rfl rfl⟩

/-! ### C7: effective attribute / content ordering -/

/-- C7: for a `ComplexType` whose extension is a `ComplexType`, the
effective attribute list is the extension's effective attributes
followed by the type's own, and the effective content-node list is the
extension's effective content nodes followed by the type's own content
node (under the second synthetic name); extension contributions are a
prefix in both views. -/
theorem complexType_effective_order (fuel : Nat) (store : Store) (i e : Nat)
    (c cext : ComplexData) (base : List Attr) (baseElems : List (String × ContentNode))
    (hget : heapGet store.heap i = some (TypeRec.complex c))
    (hext : c.extension = some e)
    (hbase : heapGet store.heap e = some (TypeRec.complex cext))
    (hattrs : ComplexType.attributes fuel store e = some base)
    (helems : ComplexType.elements_nested fuel store e = some baseElems) :
    ComplexType.attributes (fuel + 1) store i = some (base ++ c.attributes) ∧
    ComplexType.elements_nested (fuel + 1) store i =
      some (baseElems ++ (match c.element with
        | none => []
        | some node => [(uniqueName 2, node)])) := by
  constructor
  · show (match heapGet store.heap i with
      | some (.complex c) =>
        match c.extension with
        | none => some c.attributes
        | some e =>
          match heapGet store.heap e with
          | some (.complex _) =>
            match ComplexType.attributes fuel store e with
            | none => none
            | some base => some (base ++ c.attributes)
          | some (.simple _) => some c.attributes
          | some (.listT _) => some c.attributes
          | some (.unresolvedRef _) => some c.attributes
          | some (.unresolvedCustom _ _) => some c.attributes
          | some (.unionT _) => none
          | none => none
      | _ => none) = some (base ++ c.attributes)
    simp only [hget, hext, hbase, hattrs]
  · show (match heapGet store.heap i with
      | some (.complex c) =>
        let extPart : Option (List (String × ContentNode) × Nat) :=
          match c.extension with
          | none => some ([], 0)
          | some e =>
            match heapGet store.heap e with
            | some (.simple s) =>
              some ([(uniqueName 1, ContentNode.element (syntheticElement (uniqueName 1) e s))], 1)
            | some (.complex _) =>
              match ComplexType.elements_nested fuel store e with
              | none => none
              | some l => some (l, 1)
            | _ => none
        match extPart with
        | none => none
        | some (l, used) =>
          match c.element with
          | none => some l
          | some node => some (l ++ [(uniqueName (used + 1), node)])
      | _ => none) = _
    simp only [hget, hext, hbase, helems]
    cases hel : c.element with
    | none => simp
    | some node => simp

def w7Attr0 : Attr :=
  { name := "base_attr", typeRef := 3, parseF := fun s => Value.str s,
    renderF := fun p _ => p, sig := "base_attr: string" }

def w7Attr1 : Attr :=
  { name := "own_attr", typeRef := 3, parseF := fun s => Value.str s,
    renderF := fun p _ => p, sig := "own_attr: string" }

def w7Node0 : ContentNode :=
  ContentNode.element
    { name := "base_el", typeRef := 3, parse_xmlelements := fun _ _ => [],
      serializeF := fun v => SerVal.prim v, signatureF := "base_el: string" }

def w7Node1 : ContentNode :=
  ContentNode.element
    { name := "own_el", typeRef := 3, parse_xmlelements := fun _ _ => [],
      serializeF := fun v => SerVal.prim v, signatureF := "own_el: string" }

def w7Base : ComplexData :=
  { pyName := "BaseT", element := some w7Node0, attributes := [w7Attr0],
    restriction := none, extension := none, resolved := true }

def w7Derived : ComplexData :=
  { pyName := "DerivedT", element := some w7Node1, attributes := [w7Attr1],
    restriction := none, extension := some 2, resolved := true }

def w7Simple : SimpleData :=
  { pyName := "String", name := some "string",
    xmlvalueF := fun v => match v with | Value.str s => s | _ => "",
    pythonvalueF := fun t => Value.str t }

def w7Store : Store :=
  { heap := [(1, TypeRec.complex w7Derived), (2, TypeRec.complex w7Base),
             (3, TypeRec.simple w7Simple)],
    registry := [] }

/-- C7 witness: on a concrete derived/base pair the effective views put
the base's attribute and content contributions strictly before the
derived type's own. -/
theorem complexType_effective_order_witness :
    ComplexType.attributes 2 w7Store 1 = some ([w7Attr0] ++ [w7Attr1]) ∧
    ComplexType.elements_nested 2 w7Store 1 =
      some ([(uniqueName 1, w7Node0)] ++ [(uniqueName 2, w7Node1)]) :=
  complexType_effective_order 1 w7Store 1 2 w7Derived w7Base [w7Attr0]
    [(uniqueName 1, w7Node0)] rfl rfl rfl rfl rfl

/-! ### C3 / C10: ComplexType.parse_xmlelement -/

theorem parse_xmlelement_nil (fuel : Nat) (store : Store) (i : Nat) (c : ComplexData)
    (tx : Option String)
    (hget : heapGet store.heap i = some (TypeRec.complex c)) :
    ComplexType.parse_xmlelement fuel store i (XmlNode.node [] [] tx) = some Value.pyNone := by
  unfold ComplexType.parse_xmlelement
  simp only [hget, XmlNode.children, XmlNode.attrib]

theorem parse_xmlelement_not_nil (fuel : Nat) (store : Store) (i : Nat) (c : ComplexData)
    (attrs : List Attr) (elems : List (String × ContentNode))
    (cs : List XmlNode) (ats : List (String × String)) (tx : Option String)
    (hget : heapGet store.heap i = some (TypeRec.complex c))
    (hattrs : ComplexType.attributes fuel store i = some attrs)
    (helems : ComplexType.elements_nested fuel store i = some elems)
    (hne : ¬ (cs = [] ∧ ats = [])) :
    ComplexType.parse_xmlelement fuel store i (XmlNode.node cs ats tx) =
      some (Value.compound
        (elems.foldl
          (fun acc p => odMerge acc (ContentNode.parseChildren p.2 cs p.1))
          (parseAttributes attrs ats))) := by
  unfold ComplexType.parse_xmlelement
  cases cs with
  | nil =>
    cases ats with
    | nil => exact absurd ⟨rfl, rfl⟩ hne
    | cons a rest =>
      simp only [hget, hattrs, helems, XmlNode.children, XmlNode.attrib]
  | cons x xs =>
    cases ats with
    | nil => simp only [hget, hattrs, helems, XmlNode.children, XmlNode.attrib]
    | cons a rest => simp only [hget, hattrs, helems, XmlNode.children, XmlNode.attrib]

/-- C3: parsing an XML element with zero attributes and zero children
yields the nil value (not an empty compound value); with at least one
attribute or child it yields a compound value built from the decoded
attribute fields merged with the fields produced by every effective
content node consuming the full ordered child list. -/
theorem complexType_parse_nil_or_compound (fuel : Nat) (store : Store) (i : Nat)
    (c : ComplexData) (attrs : List Attr) (elems : List (String × ContentNode))
    (cs : List XmlNode) (ats : List (String × String)) (tx : Option String)
    (hget : heapGet store.heap i = some (TypeRec.complex c))
    (hattrs : ComplexType.attributes fuel store i = some attrs)
    (helems : ComplexType.elements_nested fuel store i = some elems) :
    (cs = [] ∧ ats = [] →
      ComplexType.parse_xmlelement fuel store i (XmlNode.node cs ats tx) = some Value.pyNone) ∧
    (¬ (cs = [] ∧ ats = []) →
      ComplexType.parse_xmlelement fuel store i (XmlNode.node cs ats tx) =
        some (Value.compound
          (elems.foldl
            (fun acc p => odMerge acc (ContentNode.parseChildren p.2 cs p.1))
            (parseAttributes attrs ats)))) := by
  constructor
  · rintro ⟨h1, h2⟩
    subst h1
    subst h2
    exact parse_xmlelement_nil fuel store i c tx hget
  · intro hne
    exact parse_xmlelement_not_nil fuel store i c attrs elems cs ats tx hget hattrs helems hne

def w3Attr : Attr :=
  { name := "x", typeRef := 1, parseF := fun s => Value.str s,
    renderF := fun p _ => p, sig := "x: string" }

def w3C : ComplexData :=
  { pyName := "T", element := none, attributes := [w3Attr], restriction := none,
    extension := none, resolved := true }

def w3Store : Store :=
  { heap := [(1, TypeRec.complex w3C)], registry := [] }

/-- C3 witness: the concrete type parses an empty element to nil and an
element with one matching attribute to a one-field compound value. -/
theorem complexType_parse_nil_or_compound_witness :
    ComplexType.parse_xmlelement 1 w3Store 1 (XmlNode.node [] [] none) = some Value.pyNone ∧
    ComplexType.parse_xmlelement 1 w3Store 1 (XmlNode.node [] [("x", "5")] none) =
      some (Value.compound [("x", Value.str "5")]) := by
  constructor
  · exact (complexType_parse_nil_or_compound 1 w3Store 1 w3C [w3Attr] []
      [] [] none rfl rfl rfl).1 ⟨rfl, rfl⟩
  · have h := (complexType_parse_nil_or_compound 1 w3Store 1 w3C [w3Attr] []
      [] [("x", "5")] none rfl rfl rfl).2 (by simp)
    rw [h]
    rfl

theorem attrMapGet_unknown (attrs : List Attr) (k : String)
    (h : ∀ a ∈ attrs, a.name ≠ k) : attrMapGet attrs k = none := by
  unfold attrMapGet
  suffices h2 : ∀ o : Option Attr,
      attrs.foldl (fun acc a => if a.name = k then some a else acc) o = o by
    exact h2 none
  induction attrs with
  | nil => intro o; rfl
  | cons a rest ih =>
    intro o
    rw [List.foldl_cons, if_neg (h a (by simp))]
    exact ih (fun a2 ha2 => h a2 (by simp [ha2])) o

theorem parseAttributes_skip (attrs : List Attr) (k v : String)
    (pre post : List (String × String))
    (h : ∀ a ∈ attrs, a.name ≠ k) :
    parseAttributes attrs (pre ++ (k, v) :: post) = parseAttributes attrs (pre ++ post) := by
  unfold parseAttributes
  rw [List.foldl_append, List.foldl_append, List.foldl_cons,
    attrMapGet_unknown attrs k h]

/-- C10: an XML attribute whose name matches no declared effective
attribute is silently skipped — the parse succeeds and the resulting
compound value's fields are exactly those obtained with the unknown
attribute removed (so it contributes no field, while the matching
declared attributes are still decoded and collected). -/
theorem complexType_parse_unknown_attribute (fuel : Nat) (store : Store) (i : Nat)
    (c : ComplexData) (attrs : List Attr) (elems : List (String × ContentNode))
    (cs : List XmlNode) (pre post : List (String × String)) (k v : String) (tx : Option String)
    (hget : heapGet store.heap i = some (TypeRec.complex c))
    (hattrs : ComplexType.attributes fuel store i = some attrs)
    (helems : ComplexType.elements_nested fuel store i = some elems)
    (hk : ∀ a ∈ attrs, a.name ≠ k) :
    ComplexType.parse_xmlelement fuel store i (XmlNode.node cs (pre ++ (k, v) :: post) tx) =
      some (Value.compound
        (elems.foldl
          (fun acc p => odMerge acc (ContentNode.parseChildren p.2 cs p.1))
          (parseAttributes attrs (pre ++ post)))) := by
  have hne : ¬ (cs = [] ∧ pre ++ (k, v) :: post = ([] : List (String × String))) := by
    rintro ⟨h1, h2⟩
    cases pre <;> simp at h2
  rw [parse_xmlelement_not_nil fuel store i c attrs elems cs (pre ++ (k, v) :: post) tx
    hget hattrs helems hne, parseAttributes_skip attrs k v pre post hk]

/-- C10 witness: an element carrying an undeclared attribute `bogus`
parses exactly as if that attribute were absent — one decoded field from
the declared attribute, nothing from the unknown one. -/
theorem complexType_parse_unknown_attribute_witness :
    ComplexType.parse_xmlelement 1 w3Store 1
        (XmlNode.node [] [("bogus", "9"), ("x", "5")] none) =
      some (Value.compound [("x", Value.str "5")]) := by
  have h := complexType_parse_unknown_attribute 1 w3Store 1 w3C [w3Attr] []
    [] [] [("x", "5")] "bogus" "9" none rfl rfl rfl
    (by intro a ha; simp at ha; subst ha; decide)
  rw [show ([] : List (String × String)) ++ ("bogus", "9") :: [("x", "5")] =
    [("bogus", "9"), ("x", "5")] from rfl] at h
  rw [h]
  rfl

/-! ### C4: ComplexType.serialize -/

def keys {α : Type} (m : List (String × α)) : List String :=
  m.map Prod.fst

/-- The flattened-element declaration order of an effective content-node
list: a single element contributes its name, a composite node the names
of its sub-elements, in order. -/
def flattenedNames : List (String × ContentNode) → List String
  | [] => []
  | (_, ContentNode.element e) :: rest => e.name :: flattenedNames rest
  | (_, ContentNode.group g) :: rest =>
    g.items.map (fun it => it.name) ++ flattenedNames rest

theorem odSet_append {α : Type} (m : List (String × α)) (k : String) (x : α)
    (h : k ∉ keys m) : odSet m k x = m ++ [(k, x)] := by
  unfold odSet
  rw [if_neg]
  intro hc
  simp only [List.any_eq_true, decide_eq_true_eq] at hc
  obtain ⟨p, hp, he⟩ := hc
  exact h (he ▸ List.mem_map_of_mem Prod.fst hp)

theorem serializeItems_keys (v : Value) :
    ∀ (items : List ElementNode) (acc : List (String × SerVal)),
      (∀ n ∈ keys acc, n ∉ items.map (fun it => it.name)) →
      (items.map (fun it => it.name)).Nodup →
      keys (items.foldl
        (fun acc2 sub => odSet acc2 sub.name (sub.serializeF (getField v sub.name))) acc)
        = keys acc ++ items.map (fun it => it.name) := by
  intro items
  induction items with
  | nil =>
    intro acc _ _
    simp
  | cons it rest ih =>
    intro acc hdisj hnd
    simp only [List.map_cons] at hdisj hnd ⊢
    rw [List.nodup_cons] at hnd
    simp only [List.foldl_cons]
    have hnotin : it.name ∉ keys acc := fun hin => hdisj it.name hin (by simp)
    rw [odSet_append acc it.name (it.serializeF (getField v it.name)) hnotin]
    have hd2 : ∀ n ∈ keys (acc ++ [(it.name, it.serializeF (getField v it.name))]),
        n ∉ rest.map (fun r => r.name) := by
      intro n hn2
      simp only [keys, List.map_append, List.mem_append, List.map_cons] at hn2
      cases hn2 with
      | inl h1 =>
        have h3 := hdisj n h1
        simp only [List.mem_cons] at h3
        intro hc
        exact h3 (Or.inr hc)
      | inr h2 =>
        simp at h2
        subst h2
        exact hnd.1
    rw [ih (acc ++ [(it.name, it.serializeF (getField v it.name))]) hd2 hnd.2]
    simp [keys]

theorem serializeFold_keys (v : Value) :
    ∀ (elems : List (String × ContentNode)) (acc : List (String × SerVal)),
      (∀ n ∈ keys acc, n ∉ flattenedNames elems) →
      (flattenedNames elems).Nodup →
      keys (elems.foldl
        (fun acc p =>
          match p.2 with
          | ContentNode.group g =>
            g.items.foldl
              (fun acc2 sub => odSet acc2 sub.name (sub.serializeF (getField v sub.name)))
              acc
          | ContentNode.element e => odSet acc e.name (e.serializeF (getField v e.name)))
        acc)
        = keys acc ++ flattenedNames elems := by
  intro elems
  induction elems with
  | nil =>
    intro acc _ _
    simp [flattenedNames]
  | cons p rest ih =>
    obtain ⟨nm, node⟩ := p
    cases node with
    | element e =>
      intro acc hdisj hnd
      simp only [flattenedNames] at hdisj hnd ⊢
      rw [List.nodup_cons] at hnd
      simp only [List.foldl_cons]
      have hnotin : e.name ∉ keys acc := fun hin => hdisj e.name hin (by simp)
      rw [odSet_append acc e.name (e.serializeF (getField v e.name)) hnotin]
      have hd2 : ∀ n ∈ keys (acc ++ [(e.name, e.serializeF (getField v e.name))]),
          n ∉ flattenedNames rest := by
        intro n hn2
        simp only [keys, List.map_append, List.mem_append, List.map_cons] at hn2
        cases hn2 with
        | inl h1 =>
          have h3 := hdisj n h1
          simp only [List.mem_cons] at h3
          intro hc
          exact h3 (Or.inr hc)
        | inr h2 =>
          simp at h2
          subst h2
          exact hnd.1
      rw [ih (acc ++ [(e.name, e.serializeF (getField v e.name))]) hd2 hnd.2]
      simp [keys]
    | group g =>
      intro acc hdisj hnd
      simp only [flattenedNames] at hdisj hnd ⊢
      rw [List.nodup_append] at hnd
      obtain ⟨hnd1, hnd2, hdisj12⟩ := hnd
      simp only [List.foldl_cons]
      have hdA : ∀ n ∈ keys acc, n ∉ g.items.map (fun it => it.name) := by
        intro n hn hc
        exact hdisj n hn (List.mem_append.mpr (Or.inl hc))
      have hk1 := serializeItems_keys v g.items acc hdA hnd1
      have hd2 : ∀ n ∈ keys (g.items.foldl
          (fun acc2 sub => odSet acc2 sub.name (sub.serializeF (getField v sub.name))) acc),
          n ∉ flattenedNames rest := by
        intro n hn hc
        rw [hk1] at hn
        rcases List.mem_append.mp hn with h1 | h2
        · exact hdisj n h1 (List.mem_append.mpr (Or.inr hc))
        · exact hdisj12 h2 hc
      rw [ih _ hd2 hnd2, hk1]
      simp [List.append_assoc]

theorem serializeItems_congr (v1 v2 : Value) (hagree : ∀ k, getField v1 k = getField v2 k) :
    ∀ (items : List ElementNode) (acc : List (String × SerVal)),
      items.foldl
        (fun acc2 sub => odSet acc2 sub.name (sub.serializeF (getField v1 sub.name))) acc
        = items.foldl
            (fun acc2 sub => odSet acc2 sub.name (sub.serializeF (getField v2 sub.name))) acc := by
  intro items
  induction items with
  | nil =>
    intro acc
    rfl
  | cons it rest ih =>
    intro acc
    simp only [List.foldl_cons]
    rw [hagree it.name]
    exact ih _

theorem serializeFold_congr (v1 v2 : Value) (hagree : ∀ k, getField v1 k = getField v2 k) :
    ∀ (elems : List (String × ContentNode)) (acc : List (String × SerVal)),
      elems.foldl
        (fun acc p =>
          match p.2 with
          | ContentNode.group g =>
            g.items.foldl
              (fun acc2 sub => odSet acc2 sub.name (sub.serializeF (getField v1 sub.name)))
              acc
          | ContentNode.element e => odSet acc e.name (e.serializeF (getField v1 e.name)))
        acc
        = elems.foldl
            (fun acc p =>
              match p.2 with
              | ContentNode.group g =>
                g.items.foldl
                  (fun acc2 sub => odSet acc2 sub.name (sub.serializeF (getField v2 sub.name)))
                  acc
              | ContentNode.element e => odSet acc e.name (e.serializeF (getField v2 e.name)))
            acc := by
  intro elems
  induction elems with
  | nil =>
    intro acc
    rfl
  | cons p rest ih =>
    obtain ⟨nm, node⟩ := p
    cases node with
    | element e =>
      intro acc
      simp only [List.foldl_cons]
      rw [hagree e.name]
      exact ih _
    | group g =>
      intro acc
      simp only [List.foldl_cons]
      rw [serializeItems_congr v1 v2 hagree g.items acc]
      exact ih _

/-- C4: `ComplexType.serialize` returns an ordered mapping whose key
order equals the type's declared flattened-element order, and the output
depends on the compound value only through name-based field access — so
it is independent of the order in which the fields were supplied. -/
theorem complexType_serialize_order (fuel : Nat) (store : Store) (i : Nat)
    (c : ComplexData) (elems : List (String × ContentNode)) (v1 v2 : Value)
    (hget : heapGet store.heap i = some (TypeRec.complex c))
    (helems : ComplexType.elements_nested fuel store i = some elems)
    (hnodup : (flattenedNames elems).Nodup)
    (hagree : ∀ k, getField v1 k = getField v2 k) :
    (ComplexType.serialize fuel store i v1).map keys = some (flattenedNames elems) ∧
    ComplexType.serialize fuel store i v1 = ComplexType.serialize fuel store i v2 := by
  constructor
  · unfold ComplexType.serialize
    simp only [hget, helems, Option.map_some']
    rw [serializeFold_keys v1 elems [] (by intro n hn; simp [keys] at hn) hnodup]
    simp [keys]
  · unfold ComplexType.serialize
    simp only [hget, helems]
    rw [serializeFold_congr v1 v2 hagree elems []]

def w4ElemB : ElementNode :=
  { name := "b", typeRef := 1, parse_xmlelements := fun _ _ => [],
    serializeF := fun v => SerVal.prim v, signatureF := "b: string" }

def w4ElemA : ElementNode :=
  { name := "a", typeRef := 1, parse_xmlelements := fun _ _ => [],
    serializeF := fun v => SerVal.prim v, signatureF := "a: string" }

def w4Group : GroupNode :=
  { items := [w4ElemB, w4ElemA], parse_xmlelements := fun _ _ => [],
    renderF := fun p _ => p, signatureF := "sequence" }

def w4C : ComplexData :=
  { pyName := "P", element := some (ContentNode.group w4Group), attributes := [],
    restriction := none, extension := none, resolved := true }

def w4Store : Store :=
  { heap := [(1, TypeRec.complex w4C)], registry := [] }

def w4V1 : Value :=
  Value.compound [("a", Value.str "1"), ("b", Value.str "2")]

def w4V2 : Value :=
  Value.compound [("b", Value.str "2"), ("a", Value.str "1")]

/-- C4 witness: a type declaring elements in order `b, a` serializes a
value supplied as `a, b` with key order `b, a`, and supplying the fields
in either order yields the identical serialization. -/
theorem complexType_serialize_order_witness :
    (ComplexType.serialize 1 w4Store 1 w4V1).map keys = some ["b", "a"] ∧
    ComplexType.serialize 1 w4Store 1 w4V1 = ComplexType.serialize 1 w4Store 1 w4V2 := by
  have hagree : ∀ k, getField w4V1 k = getField w4V2 k := by
    intro k
    by_cases ha : "a" = k
    · by_cases hb : "b" = k
      · exact absurd (ha.trans hb.symm) (by decide)
      · simp [getField, w4V1, w4V2, ha, hb]
    · by_cases hb : "b" = k
      · simp [getField, w4V1, w4V2, ha, hb]
      · simp [getField, w4V1, w4V2, ha, hb]
  have h := complexType_serialize_order 1 w4Store 1 w4C
    [(uniqueName 1, ContentNode.group w4Group)] w4V1 w4V2 rfl rfl (by decide) hagree
  exact ⟨h.1, h.2⟩

/-! ### C5: ComplexType.signature -/

theorem sigFold_filterMap (i : Nat) :
    ∀ (elems : List (String × ContentNode)) (init : List String),
      elems.foldl
        (fun acc p =>
          match p.2 with
          | ContentNode.element e =>
            if e.typeRef = i then acc else acc ++ [e.signatureF]
          | ContentNode.group g => acc ++ [g.signatureF])
        init
      = init ++ elems.filterMap
          (fun p =>
            match p.2 with
            | ContentNode.element e =>
              if e.typeRef = i then none else some e.signatureF
            | ContentNode.group g => some g.signatureF) := by
  intro elems
  induction elems with
  | nil =>
    intro init
    simp
  | cons p rest ih =>
    obtain ⟨nm, node⟩ := p
    cases node with
    | element e =>
      intro init
      by_cases he : e.typeRef = i
      · simp [he, ih]
      · simp [he, ih, List.append_assoc]
    | group g =>
      intro init
      simp [ih, List.append_assoc]

theorem attrSigFold_map :
    ∀ (attrs : List Attr) (init : List String),
      attrs.foldl (fun acc a => acc ++ [a.sig]) init = init ++ attrs.map (fun a => a.sig) := by
  intro attrs
  induction attrs with
  | nil =>
    intro init
    simp
  | cons a rest ih =>
    intro init
    simp [ih, List.append_assoc]

/-- C5: `ComplexType.signature` is a total function of the embedded
graph (so it terminates, also when the element graph is cyclic) and
returns the comma-joined signatures of the effective content nodes and
effective attributes in declaration order, skipping exactly those single
elements whose type is the very type instance being signed while
keeping every other sibling element and attribute. -/
theorem complexType_signature_skips_self (fuel : Nat) (store : Store) (i : Nat)
    (c : ComplexData) (elems : List (String × ContentNode)) (attrs : List Attr)
    (hget : heapGet store.heap i = some (TypeRec.complex c))
    (helems : ComplexType.elements_nested fuel store i = some elems)
    (hattrs : ComplexType.attributes fuel store i = some attrs) :
    ComplexType.signature fuel store i =
      some (String.intercalate ", "
        (elems.filterMap
          (fun p =>
            match p.2 with
            | ContentNode.element e =>
              if e.typeRef = i then none else some e.signatureF
            | ContentNode.group g => some g.signatureF)
         ++ attrs.map (fun a => a.sig))) := by
  unfold ComplexType.signature
  simp only [hget, helems, hattrs]
  rw [sigFold_filterMap i elems [], attrSigFold_map attrs]
  simp

def w5Simple : SimpleData :=
  { pyName := "String", name := some "string",
    xmlvalueF := fun v => match v with | Value.str s => s | _ => "",
    pythonvalueF := fun t => Value.str t }

def w5Attr : Attr :=
  { name := "tag", typeRef := 3, parseF := fun s => Value.str s,
    renderF := fun p _ => p, sig := "tag: string" }

def w5Next : ContentNode :=
  ContentNode.element
    { name := "next", typeRef := 1, parse_xmlelements := fun _ _ => [],
      serializeF := fun v => SerVal.prim v, signatureF := "next: Node" }

def w5Other : ContentNode :=
  ContentNode.element
    { name := "other", typeRef := 3, parse_xmlelements := fun _ _ => [],
      serializeF := fun v => SerVal.prim v, signatureF := "other: string" }

def w5Base : ComplexData :=
  { pyName := "NodeBase", element := some w5Other, attributes := [],
    restriction := none, extension := none, resolved := true }

def w5NodeC : ComplexData :=
  { pyName := "Node", element := some w5Next, attributes := [w5Attr],
    restriction := none, extension := some 2, resolved := true }

def w5Store : Store :=
  { heap := [(1, TypeRec.complex w5NodeC), (2, TypeRec.complex w5Base),
             (3, TypeRec.simple w5Simple)],
    registry := [] }

/-- C5 witness: a `Node` type whose own element references `Node` itself
signs without the self-referential element but with the inherited
sibling element and its own attribute. -/
theorem complexType_signature_skips_self_witness :
    ComplexType.signature 2 w5Store 1 = some "other: string, tag: string" := by
  rw [complexType_signature_skips_self 2 w5Store 1 w5NodeC
    ([(uniqueName 1, w5Other)] ++ [(uniqueName 2, w5Next)]) [w5Attr] rfl rfl rfl]
  rfl

/-! ### C6: SimpleType.__call__ -/

/-- C6: calling a `SimpleType` with a total argument count different
from one raises a `TypeError` whose message names the offending type;
calling it with exactly one keyword argument not named "value" raises a
`TypeError` naming the type and the keyword; calling with one positional
argument or the single keyword argument "value" succeeds and encodes the
value. -/
theorem simpleType_call_arity (t : SimpleData) :
    (∀ (args : List Value) (kwargs : List (String × Value)),
      args.length + kwargs.length ≠ 1 →
      SimpleType.call t args kwargs =
        CallResult.typeError (t.pyName ++ "() takes exactly 1 argument (" ++
          toString (args.length + kwargs.length) ++
          " given). Simple types expect only a single value argument")) ∧
    (∀ (k : String) (v : Value), k ≠ "value" →
      SimpleType.call t [] [(k, v)] =
        CallResult.typeError (t.pyName ++ "() got an unexpected keyword argument " ++
          pyQuote k ++ ". Simple types expect only a single value argument")) ∧
    (∀ v : Value, SimpleType.call t [v] [] = CallResult.ok (t.xmlvalueF v)) ∧
    (∀ v : Value, SimpleType.call t [] [("value", v)] = CallResult.ok (t.xmlvalueF v)) := by
  refine ⟨?_, ?_, ?_, ?_⟩
  · intro args kwargs h
    unfold SimpleType.call
    rw [if_pos h]
  · intro k v hk
    unfold SimpleType.call
    rw [if_neg (by simp)]
    rw [if_pos ⟨by simp, by simp [hk]⟩]
  · intro v
    unfold SimpleType.call
    rw [if_neg (by simp)]
    rw [if_neg (by simp)]
  · intro v
    unfold SimpleType.call
    rw [if_neg (by simp)]
    rw [if_neg (by simp)]
    rfl

def w6T : SimpleData :=
  { pyName := "Count", name := some "count",
    xmlvalueF := fun v => match v with | Value.int n => toString n | _ => "",
    pythonvalueF := fun s => Value.str s }

/-- C6 witness: two positional arguments and a misnamed keyword argument
raise the arity/argument-name error with the concrete messages, while a
positional or "value"-keyword call encodes the value. -/
theorem simpleType_call_arity_witness :
    SimpleType.call w6T [Value.int 1, Value.int 2] [] =
      CallResult.typeError
        "Count() takes exactly 1 argument (2 given). Simple types expect only a single value argument" ∧
    SimpleType.call w6T [] [("item", Value.int 1)] =
      CallResult.typeError ("Count() got an unexpected keyword argument " ++
        pyQuote "item" ++ ". Simple types expect only a single value argument") ∧
    SimpleType.call w6T [Value.int 7] [] = CallResult.ok "7" ∧
    SimpleType.call w6T [] [("value", Value.int 7)] = CallResult.ok "7" := by
  refine ⟨?_, ?_, ?_, ?_⟩
  · rw [(simpleType_call_arity w6T).1 [Value.int 1, Value.int 2] [] (by decide)]
    rfl
  · rw [(simpleType_call_arity w6T).2.1 "item" (Value.int 1) (by decide)]
    rfl
  · rw [(simpleType_call_arity w6T).2.2.1 (Value.int 7)]
    rfl
  · rw [(simpleType_call_arity w6T).2.2.2 (Value.int 7)]
    rfl

/-! ### C8: ListType rendering -/

/-- C8: `ListType.render` sets the parent node's text to the item-type
scalar encodings of the items joined with single spaces, preserving item
order. -/
theorem listType_render_joins (store : Store) (itemRef : Nat) (s : SimpleData)
    (parent : XmlNode) (items : List Value)
    (hitem : heapGet store.heap itemRef = some (TypeRec.simple s)) :
    ListType.render store itemRef parent (Value.list items) =
      some (parent.setText (some (String.intercalate " " (items.map s.xmlvalueF)))) := by
  unfold ListType.render ListType.xmlvalue
  simp only [hitem]

def w8Int : SimpleData :=
  { pyName := "Integer", name := some "integer",
    xmlvalueF := fun v => match v with | Value.int n => toString n | _ => "",
    pythonvalueF := fun t => Value.str t }

def w8Store : Store :=
  { heap := [(1, TypeRec.simple w8Int), (2, TypeRec.listT 1)], registry := [] }

/-- C8 witness: with a decimal integer item type, rendering `[1, 2, 3]`
produces the text `1 2 3`. -/
theorem listType_render_joins_witness :
    ListType.render w8Store 1 (XmlNode.node [] [] none)
        (Value.list [Value.int 1, Value.int 2, Value.int 3]) =
      some (XmlNode.node [] [] (some "1 2 3")) := by
  rw [listType_render_joins w8Store 1 w8Int (XmlNode.node [] [] none)
    [Value.int 1, Value.int 2, Value.int 3] rfl]
  rfl

/-! ### C9: unimplemented operations -/

/-- C9: invoking an operation on a type variant that does not implement
it fails with the spec's AbstractMethodError instead of silently
succeeding: the union variant's parse, render and serialize operations
(absent from `UnionType`, which implements only resolve and signature),
and parse on the unresolved-reference variant (which defines only
resolve and inherits the raising base method). -/
theorem abstract_ops_error (fuel : Nat) (store : Store) (iu ir : Nat)
    (refs : List Nat) (q : String) (x parent : XmlNode) (v : Value)
    (hu : heapGet store.heap iu = some (TypeRec.unionT refs))
    (hr : heapGet store.heap ir = some (TypeRec.unresolvedRef q)) :
    invokeParse fuel store iu x = Marshal.abstractMethodError ∧
    invokeRender fuel store iu parent v = Marshal.abstractMethodError ∧
    invokeSerialize fuel store iu v = Marshal.abstractMethodError ∧
    invokeParse fuel store ir x = Marshal.abstractMethodError := by
  refine ⟨?_, ?_, ?_, ?_⟩
  · unfold invokeParse
    simp only [hu]
  · unfold invokeRender
    simp only [hu]
  · unfold invokeSerialize
    simp only [hu]
  · unfold invokeParse
    simp only [hr]

def w9Store : Store :=
  { heap := [(1, TypeRec.unionT []), (2, TypeRec.unresolvedRef "missing")],
    registry := [] }

/-- C9 witness: a concrete union type and a concrete unresolved
reference error on the unimplemented operations. -/
theorem abstract_ops_error_witness :
    invokeParse 1 w9Store 1 (XmlNode.node [] [] none) = Marshal.abstractMethodError ∧
    invokeRender 1 w9Store 1 (XmlNode.node [] [] none) Value.pyNone =
      Marshal.abstractMethodError ∧
    invokeSerialize 1 w9Store 1 Value.pyNone = Marshal.abstractMethodError ∧
    invokeParse 1 w9Store 2 (XmlNode.node [] [] none) = Marshal.abstractMethodError :=
  abstract_ops_error 1 w9Store 1 2 [] "missing" (XmlNode.node [] [] none)
    (XmlNode.node [] [] none) Value.pyNone rfl rfl

end Zeep
